import Mathlib

/-
Verification of the byte-range lock manager in `range_lock.hh` (struct
`range_lock`) against its natural-language specification.

Shallow embedding conventions:
* `uint64_t` values are `Nat` with an explicit `% U64` (`U64 = 2 ^ 64`)
  wherever the C++ arithmetic can wrap; where a quantity provably stays
  below `2 ^ 64` the reduction is omitted and noted in a comment.
* `std::unordered_map<uint64_t, std::unique_ptr<region>>` (`_regions`)
  is an association list `Table = List (Nat × Region)`; the map's key
  uniqueness is the predicate `wf`.
* A `region`'s `std::shared_timed_mutex` is modelled by two fields:
  `writer` (an exclusive holder exists) and `readers` (number of shared
  holders).  `mutex.lock()` / `lock_shared()` record the state after the
  (possibly blocking) acquisition has completed; `try_lock` variants
  succeed exactly when the mutex is free for the requested mode.
* A failed `assert` is modelled as `Except.error s` (for state
  transformers, carrying the state at the failure point) or `none`.
-/

/-- Width of `uint64_t` arithmetic. -/
def U64 : Nat := 2 ^ 64

/-- Per-region state (struct `region`, range_lock.hh lines 46-53):
`refcount` plus the readers-writer mutex, the latter modelled by the
current exclusive holder flag and the number of shared holders. -/
structure Region where
  refcount : Nat
  writer : Bool
  readers : Nat
deriving Repr, DecidableEq

/-- The region table `_regions`: association list from region id to entry. -/
abbrev Table := List (Nat × Region)

/-- `_regions.find(region_id)`: first entry with the given key, if any. -/
def find_region : Table → Nat → Option Region
  | [], _ => none
  | e :: es, id => if e.1 = id then some e.2 else find_region es id

/-- In-place mutation of the entry for `id` (the C++ code mutates the
`region` object through the reference returned by `find`): every entry
keyed `id` is replaced by `r`, all other entries are untouched. -/
def set_region : Table → Nat → Region → Table
  | [], _, _ => []
  | e :: es, id, r => (if e.1 = id then (id, r) else e) :: set_region es id r

/-- `_regions.erase(it)`: remove the entry for `id` (under the map's
key uniqueness there is at most one). -/
def erase_region : Table → Nat → Table
  | [], _ => []
  | e :: es, id => if e.1 = id then erase_region es id else e :: erase_region es id

/-- Keys present in the region table. -/
def region_keys (t : Table) : List Nat := t.map Prod.fst

/-- Well-formedness of the embedded table: keys are unique (as in
`std::unordered_map`) and every present entry has a positive refcount
(the spec's Region Table invariant). -/
def wf (t : Table) : Prop :=
  (region_keys t).Nodup ∧ ∀ e ∈ t, 0 < e.2.refcount

instance wf_decidable (t : Table) : Decidable (wf t) := by
  unfold wf; infer_instance

/-- `get_locked_region(region_id)` (range_lock.hh lines 75-82): look up
the entry; `assert(it != _regions.end())` and `assert(r.refcount > 0)`
are modelled as `none`. -/
def get_locked_region (t : Table) (id : Nat) : Option Region :=
  match find_region t id with
  | none => none
  | some r => if r.refcount = 0 then none else some r

/-- `get_and_lock_region(region_id)` (range_lock.hh lines 84-95):
find-or-create the entry (new entries start with `refcount = 0`), then
increment its refcount; returns the (incremented) entry and the updated
table (the C++ returns a reference into the table). -/
def get_and_lock_region (t : Table) (id : Nat) : Region × Table :=
  match find_region t id with
  | some r =>
    let r1 : Region := { r with refcount := r.refcount + 1 }
    (r1, set_region t id r1)
  | none =>
    let r1 : Region := { refcount := 1, writer := false, readers := 0 }
    (r1, (id, r1) :: t)

/-- `unlock_region(region_id)` (range_lock.hh lines 97-105):
`assert(it != _regions.end())` is `none`; otherwise `--r.refcount`
(a `uint64_t` decrement, so `0` would wrap to `2^64 - 1`) and erase the
entry when the new refcount is `0`. -/
def unlock_region (t : Table) (id : Nat) : Option Table :=
  match find_region t id with
  | none => none
  | some r =>
    let rc : Nat := if r.refcount = 0 then U64 - 1 else r.refcount - 1
    if rc = 0 then some (erase_region t id)
    else some (set_region t id { r with refcount := rc })

/-- `get_region_id(offset)` (range_lock.hh lines 107-109). -/
def get_region_id (rs offset : Nat) : Nat := offset / rs

/-- `do_for_each_region(offset, length, f)` (range_lock.hh lines
111-124) as the list of region ids passed to `f`, in loop order.  The
alignment asserts always hold for the arguments produced by
`for_each_region` and are not modelled.  `offset + i * region_size`
cannot wrap for validated parameters (it stays at most
`offset + length - 1 < 2 ^ 64`), so no `% U64` is needed. -/
def do_for_each_region (rs offset length : Nat) : List Nat :=
  let regions := length / rs
  (List.range regions).map (fun i => get_region_id rs (offset + i * rs))

/-- `offset & ~(_region_size - 1)` (range_lock.hh line 127): for the
power-of-two region sizes admitted by the constructor this clears the
low bits, i.e. rounds down to a multiple of `rs`. -/
def alignedDownOffset (rs offset : Nat) : Nat := offset / rs * rs

/-- `(length + _region_size - 1) & ~(_region_size - 1)` (range_lock.hh
line 128): the sum `length + rs - 1` is `uint64_t` arithmetic and can
wrap, hence the `% U64`; the mask rounds down to a multiple of `rs`. -/
def alignedUpLength (rs length : Nat) : Nat :=
  (length + rs - 1) % U64 / rs * rs

/-- `for_each_region(offset, length, f)` (range_lock.hh lines 126-130)
as the list of visited region ids in visit order. -/
def for_each_region (rs offset length : Nat) : List Nat :=
  do_for_each_region rs (alignedDownOffset rs offset) (alignedUpLength rs length)

/-- `validate_parameters(offset, length)` (range_lock.hh lines 132-135):
`assert(offset < (offset + length))` — a `uint64_t` comparison, so the
sum wraps — then `assert(length > 0)`. -/
def validate_parameters (offset length : Nat) : Bool :=
  decide (offset < (offset + length) % U64) && decide (0 < length)

/-- One per-region step of a locking loop: `get_and_lock_region` on the
id, then mutate the returned region's mutex state with `f` (the
`r.mutex.lock()` / `lock_shared()` call of range_lock.hh lines 142-145
and 170-173). -/
def acquireStep (f : Region → Region) (t : Table) (id : Nat) : Table :=
  let p := get_and_lock_region t id
  set_region p.2 id (f p.1)

/-- One per-region step of an unlocking loop (range_lock.hh lines
151-155 and 179-183): `get_locked_region`, mutate the mutex state with
`g` (`r.mutex.unlock()` / `unlock_shared()`), then `unlock_region`.
A failed assert inside either lookup yields `Except.error` carrying the
table at that point. -/
def releaseStep (g : Region → Region) (t : Table) (id : Nat) : Except Table Table :=
  match get_locked_region t id with
  | none => Except.error t
  | some r =>
    let t1 := set_region t id (g r)
    match unlock_region t1 id with
    | none => Except.error t1
    | some t2 => Except.ok t2

/-- `r.mutex.lock()`: record the exclusive holder. -/
def exclusiveAcquire (r : Region) : Region := { r with writer := true }

/-- `r.mutex.unlock()`: clear the exclusive holder. -/
def exclusiveRelease (r : Region) : Region := { r with writer := false }

/-- `r.mutex.lock_shared()`: one more shared holder. -/
def sharedAcquire (r : Region) : Region := { r with readers := r.readers + 1 }

/-- `r.mutex.unlock_shared()`: one fewer shared holder. -/
def sharedRelease (r : Region) : Region := { r with readers := r.readers - 1 }

/-- `lock(offset, length)` (range_lock.hh lines 140-146) as a state
transformer on the region table of a `range_lock` with region size
`rs`; `Except.error` is a failed assert, carrying the table unchanged
since validation precedes the loop. -/
def lock (rs : Nat) (t : Table) (offset length : Nat) : Except Table Table :=
  if validate_parameters offset length then
    Except.ok ((for_each_region rs offset length).foldl (acquireStep exclusiveAcquire) t)
  else Except.error t

/-- `unlock(offset, length)` (range_lock.hh lines 149-156).  Each loop
iteration can fail its asserts, hence the monadic fold. -/
def unlock (rs : Nat) (t : Table) (offset length : Nat) : Except Table Table :=
  if validate_parameters offset length then
    (for_each_region rs offset length).foldlM (releaseStep exclusiveRelease) t
  else Except.error t

/-- `lock_shared(offset, length)` (range_lock.hh lines 168-174). -/
def lock_shared (rs : Nat) (t : Table) (offset length : Nat) : Except Table Table :=
  if validate_parameters offset length then
    Except.ok ((for_each_region rs offset length).foldl (acquireStep sharedAcquire) t)
  else Except.error t

/-- `unlock_shared(offset, length)` (range_lock.hh lines 177-184). -/
def unlock_shared (rs : Nat) (t : Table) (offset length : Nat) : Except Table Table :=
  if validate_parameters offset length then
    (for_each_region rs offset length).foldlM (releaseStep sharedRelease) t
  else Except.error t

/-- `with_lock(offset, length, func)` (range_lock.hh lines 159-164):
`lock(offset, length); func(); unlock(offset, length);` — the body is
abstracted to whether it fails (`bodyFails`); a failing body's error
propagates from the point after `lock`, before any `unlock` runs, which
is exactly what the C++ does when `func()` throws. -/
def with_lock (rs : Nat) (t : Table) (offset length : Nat) (bodyFails : Bool) :
    Except Table Table :=
  match lock rs t offset length with
  | Except.error t1 => Except.error t1
  | Except.ok t1 =>
    if bodyFails then Except.error t1 else unlock rs t1 offset length

/-- `with_lock_shared(offset, length, func)` (range_lock.hh lines
187-192), same modelling as `with_lock`. -/
def with_lock_shared (rs : Nat) (t : Table) (offset length : Nat) (bodyFails : Bool) :
    Except Table Table :=
  match lock_shared rs t offset length with
  | Except.error t1 => Except.error t1
  | Except.ok t1 =>
    if bodyFails then Except.error t1 else unlock_shared rs t1 offset length

/-- Modelled from the spec: `try_lock` is declared nowhere in
`range_lock.hh`; only the test harness `main.cc` calls it.  Per spec
§4.3: attempt the covered ids in ascending order; acquiring a region
succeeds when its mutex is free (no writer, no readers); on the first
busy region, undo that region's `get_and_lock_region` and release every
region already acquired by this call, in the same ascending order, then
return `false`.  `acquired` accumulates the ids acquired so far. -/
def tryLockGo : Table → List Nat → List Nat → Option (Bool × Table)
  | t, _, [] => some (true, t)
  | t, acquired, id :: rest =>
    let p := get_and_lock_region t id
    if p.1.writer = false ∧ p.1.readers = 0 then
      tryLockGo (set_region p.2 id (exclusiveAcquire p.1)) (acquired ++ [id]) rest
    else
      match unlock_region p.2 id with
      | none => none
      | some t1 =>
        match acquired.foldlM (releaseStep exclusiveRelease) t1 with
        | Except.error _ => none
        | Except.ok t2 => some (false, t2)

/-- Modelled from the spec: `try_lock(offset, length) -> bool`
(spec §4.3 and §6); validates parameters like every range operation,
then attempts the covered ids in ascending order via `tryLockGo`.
`none` is a failed assert. -/
def try_lock (rs : Nat) (t : Table) (offset length : Nat) : Option (Bool × Table) :=
  if validate_parameters offset length then
    tryLockGo t [] (for_each_region rs offset length)
  else none

/-- Modelled from the spec: shared-mode counterpart of `tryLockGo`;
a shared acquisition succeeds when no writer holds the region. -/
def trySharedGo : Table → List Nat → List Nat → Option (Bool × Table)
  | t, _, [] => some (true, t)
  | t, acquired, id :: rest =>
    let p := get_and_lock_region t id
    if p.1.writer = false then
      trySharedGo (set_region p.2 id (sharedAcquire p.1)) (acquired ++ [id]) rest
    else
      match unlock_region p.2 id with
      | none => none
      | some t1 =>
        match acquired.foldlM (releaseStep sharedRelease) t1 with
        | Except.error _ => none
        | Except.ok t2 => some (false, t2)

/-- Modelled from the spec: `try_lock_shared(offset, length) -> bool`
(spec §4.3 and §6). -/
def try_lock_shared (rs : Nat) (t : Table) (offset length : Nat) : Option (Bool × Table) :=
  if validate_parameters offset length then
    trySharedGo t [] (for_each_region rs offset length)
  else none

/-! ### Association-list lemmas for the region table -/

theorem find_region_eq_none {t : Table} {id : Nat} :
    find_region t id = none ↔ ∀ e ∈ t, e.1 ≠ id := by
  induction t with
  | nil => simp [find_region]
  | cons e es ih =>
    by_cases h : e.1 = id
    · simp [find_region, h]
    · simp [find_region, h, ih]

theorem find_region_mem {t : Table} {id : Nat} {r : Region}
    (h : find_region t id = some r) : (id, r) ∈ t := by
  induction t with
  | nil => simp [find_region] at h
  | cons e es ih =>
    rw [find_region] at h
    by_cases he : e.1 = id
    · rw [if_pos he] at h
      injection h with h
      have hhd : (id, r) = e := by rw [← he, ← h]
      rw [hhd]
      exact List.mem_cons_self _ _
    · rw [if_neg he] at h
      exact List.mem_cons_of_mem _ (ih h)

theorem find_region_set_ne {t : Table} {i j : Nat} {r : Region} (h : j ≠ i) :
    find_region (set_region t i r) j = find_region t j := by
  induction t with
  | nil => rfl
  | cons e es ih =>
    rw [set_region]
    by_cases he : e.1 = i
    · rw [if_pos he, find_region, find_region, ih, if_neg (fun hji => h hji.symm),
        if_neg (fun hej => h (he ▸ hej).symm)]
    · rw [if_neg he, find_region, find_region, ih]

theorem find_region_set_self {t : Table} {id : Nat} {r r0 : Region}
    (h : find_region t id = some r0) :
    find_region (set_region t id r) id = some r := by
  induction t with
  | nil => simp [find_region] at h
  | cons e es ih =>
    rw [find_region] at h
    rw [set_region]
    by_cases he : e.1 = id
    · rw [if_pos he, find_region, if_pos rfl]
    · rw [if_neg he] at h
      rw [if_neg he, find_region, if_neg he]
      exact ih h

theorem set_region_of_find_none {t : Table} {id : Nat} {r : Region}
    (h : find_region t id = none) : set_region t id r = t := by
  induction t with
  | nil => rfl
  | cons e es ih =>
    rw [find_region] at h
    by_cases he : e.1 = id
    · rw [if_pos he] at h; exact absurd h (by simp)
    · rw [if_neg he] at h
      rw [set_region, if_neg he, ih h]

theorem set_region_set_region {t : Table} {id : Nat} {r1 r2 : Region} :
    set_region (set_region t id r1) id r2 = set_region t id r2 := by
  induction t with
  | nil => rfl
  | cons e es ih =>
    by_cases he : e.1 = id
    · simp [set_region, he, ih]
    · simp [set_region, he, ih]

theorem set_region_comm {t : Table} {i j : Nat} {x y : Region} (h : i ≠ j) :
    set_region (set_region t j y) i x = set_region (set_region t i x) j y := by
  induction t with
  | nil => rfl
  | cons e es ih =>
    by_cases hej : e.1 = j
    · have hei : ¬e.1 = i := by rw [hej]; exact Ne.symm h
      simp [set_region, hej, hei, Ne.symm h, h, ih]
    · by_cases hei : e.1 = i
      · simp [set_region, hej, hei, Ne.symm h, h, ih]
      · simp [set_region, hej, hei, ih]

theorem set_region_self {t : Table} {id : Nat} {r : Region}
    (hnd : (region_keys t).Nodup) (h : find_region t id = some r) :
    set_region t id r = t := by
  induction t with
  | nil => rfl
  | cons e es ih =>
    rw [region_keys, List.map_cons, List.nodup_cons] at hnd
    rw [find_region] at h
    rw [set_region]
    by_cases he : e.1 = id
    · rw [if_pos he] at h
      injection h with h
      have hnone : find_region es id = none := by
        rw [find_region_eq_none]
        intro a ha hak
        exact hnd.1 (he ▸ hak ▸ (List.mem_map_of_mem Prod.fst ha))
      rw [if_pos he, set_region_of_find_none hnone, ← he, ← h]
    · rw [if_neg he] at h
      rw [if_neg he, ih hnd.2 h]

theorem find_region_erase_self {t : Table} {id : Nat} :
    find_region (erase_region t id) id = none := by
  induction t with
  | nil => rfl
  | cons e es ih =>
    rw [erase_region]
    by_cases he : e.1 = id
    · rw [if_pos he]; exact ih
    · rw [if_neg he, find_region, if_neg he]; exact ih

theorem find_region_erase_ne {t : Table} {i j : Nat} (h : j ≠ i) :
    find_region (erase_region t i) j = find_region t j := by
  induction t with
  | nil => rfl
  | cons e es ih =>
    by_cases he : e.1 = i
    · have hej : ¬e.1 = j := by rw [he]; exact Ne.symm h
      simp [erase_region, he, hej, find_region, ih, Ne.symm h]
    · simp [erase_region, he, find_region, ih]

theorem erase_region_of_find_none {t : Table} {id : Nat}
    (h : find_region t id = none) : erase_region t id = t := by
  induction t with
  | nil => rfl
  | cons e es ih =>
    rw [find_region] at h
    by_cases he : e.1 = id
    · rw [if_pos he] at h; exact absurd h (by simp)
    · rw [if_neg he] at h
      rw [erase_region, if_neg he, ih h]

theorem erase_set_comm {t : Table} {i j : Nat} {y : Region} (h : i ≠ j) :
    erase_region (set_region t j y) i = set_region (erase_region t i) j y := by
  induction t with
  | nil => rfl
  | cons e es ih =>
    by_cases hej : e.1 = j
    · have hei : ¬e.1 = i := by rw [hej]; exact Ne.symm h
      simp [set_region, erase_region, hej, hei, Ne.symm h, ih]
    · by_cases hei : e.1 = i
      · simp [set_region, erase_region, hej, hei, h, ih]
      · simp [set_region, erase_region, hej, hei, ih]


  

/-! ### Keys and well-formedness -/

theorem region_keys_set {t : Table} {id : Nat} {r : Region} :
    region_keys (set_region t id r) = region_keys t := by
  induction t with
  | nil => rfl
  | cons e es ih =>
    by_cases he : e.1 = id
    · simp [set_region, region_keys, he] at ih ⊢
      exact ih
    · simp [set_region, region_keys, he] at ih ⊢
      exact ih

theorem mem_set_region {t : Table} {id : Nat} {r : Region} {e : Nat × Region}
    (h : e ∈ set_region t id r) : e = (id, r) ∨ e ∈ t := by
  induction t with
  | nil => simp [set_region] at h
  | cons e0 es ih =>
    by_cases he : e0.1 = id
    · rw [set_region, if_pos he, List.mem_cons] at h
      rcases h with h | h
      · exact Or.inl h
      · rcases ih h with h | h
        · exact Or.inl h
        · exact Or.inr (List.mem_cons_of_mem _ h)
    · rw [set_region, if_neg he, List.mem_cons] at h
      rcases h with h | h
      · exact Or.inr (h ▸ List.mem_cons_self _ _)
      · rcases ih h with h | h
        · exact Or.inl h
        · exact Or.inr (List.mem_cons_of_mem _ h)

theorem mem_erase_region {t : Table} {id : Nat} {e : Nat × Region}
    (h : e ∈ erase_region t id) : e ∈ t := by
  induction t with
  | nil => simp [erase_region] at h
  | cons e0 es ih =>
    by_cases he : e0.1 = id
    · rw [erase_region, if_pos he] at h
      exact List.mem_cons_of_mem _ (ih h)
    · rw [erase_region, if_neg he, List.mem_cons] at h
      rcases h with h | h
      · exact h ▸ List.mem_cons_self _ _
      · exact List.mem_cons_of_mem _ (ih h)

theorem region_keys_erase_sublist {t : Table} {id : Nat} :
    List.Sublist (region_keys (erase_region t id)) (region_keys t) := by
  induction t with
  | nil => simp [erase_region, region_keys]
  | cons e es ih =>
    by_cases he : e.1 = id
    · rw [erase_region, if_pos he]
      exact List.Sublist.cons _ ih
    · rw [erase_region, if_neg he]
      exact List.Sublist.cons₂ _ ih

theorem wf_set {t : Table} {id : Nat} {r : Region} (hw : wf t)
    (hr : 0 < r.refcount) : wf (set_region t id r) := by
  refine ⟨by rw [region_keys_set]; exact hw.1, fun e he => ?_⟩
  rcases mem_set_region he with h | h
  · rw [h]; exact hr
  · exact hw.2 e h

theorem wf_cons {t : Table} {id : Nat} {r : Region} (hw : wf t)
    (hnone : find_region t id = none) (hr : 0 < r.refcount) :
    wf ((id, r) :: t) := by
  constructor
  · rw [region_keys, List.map_cons, List.nodup_cons]
    refine ⟨fun hmem => ?_, hw.1⟩
    rcases List.mem_map.mp hmem with ⟨e, hmem, hkey⟩
    exact (find_region_eq_none.mp hnone e hmem) hkey
  · intro e he
    rw [List.mem_cons] at he
    rcases he with he | he
    · rw [he]; exact hr
    · exact hw.2 e he

theorem wf_erase {t : Table} {id : Nat} (hw : wf t) : wf (erase_region t id) :=
  ⟨hw.1.sublist region_keys_erase_sublist, fun e he => hw.2 e (mem_erase_region he)⟩

theorem wf_get_and_lock {t : Table} {id : Nat} (hw : wf t) :
    wf (get_and_lock_region t id).2 := by
  rw [get_and_lock_region]
  cases hfind : find_region t id with
  | some r => exact wf_set hw (Nat.succ_pos _)
  | none => exact wf_cons hw hfind Nat.one_pos

theorem wf_acquireStep {f : Region → Region}
    (hf : ∀ r, (f r).refcount = r.refcount) {t : Table} {id : Nat} (hw : wf t) :
    wf (acquireStep f t id) := by
  rw [acquireStep]
  refine wf_set (wf_get_and_lock hw) ?_
  rw [hf, get_and_lock_region]
  cases hfind : find_region t id with
  | some r => exact Nat.succ_pos _
  | none => exact Nat.one_pos

theorem wf_unlock_region {t t' : Table} {id : Nat} (hw : wf t)
    (h : unlock_region t id = some t') : wf t' := by
  cases hfind : find_region t id with
  | none => rw [unlock_region, hfind] at h; exact absurd h (by simp)
  | some r =>
    simp only [unlock_region, hfind] at h
    by_cases hrc : (if r.refcount = 0 then U64 - 1 else r.refcount - 1) = 0
    · rw [if_pos hrc] at h
      injection h with h
      exact h ▸ wf_erase hw
    · rw [if_neg hrc] at h
      injection h with h
      exact h ▸ wf_set hw (Nat.pos_of_ne_zero hrc)

/-! ### Acquire and release step algebra -/

theorem acquireStep_of_find_some {f : Region → Region} {t : Table} {id : Nat} {r : Region}
    (h : find_region t id = some r) :
    acquireStep f t id = set_region t id (f { r with refcount := r.refcount + 1 }) := by
  simp only [acquireStep, get_and_lock_region, h]
  exact set_region_set_region

theorem acquireStep_of_find_none {f : Region → Region} {t : Table} {id : Nat}
    (h : find_region t id = none) :
    acquireStep f t id =
      (id, f { refcount := 1, writer := false, readers := 0 }) :: t := by
  simp only [acquireStep, get_and_lock_region, h]
  rw [set_region, if_pos rfl, set_region_of_find_none h]

theorem find_acquireStep_self {f : Region → Region} {t : Table} {id : Nat} :
    find_region (acquireStep f t id) id = some (f (get_and_lock_region t id).1) := by
  cases hfind : find_region t id with
  | some r =>
    rw [acquireStep_of_find_some hfind]
    simp only [get_and_lock_region, hfind]
    exact find_region_set_self hfind
  | none =>
    rw [acquireStep_of_find_none hfind]
    simp only [get_and_lock_region, hfind]
    rw [find_region, if_pos rfl]

theorem find_acquireStep_ne {f : Region → Region} {t : Table} {i j : Nat} (h : j ≠ i) :
    find_region (acquireStep f t i) j = find_region t j := by
  cases hfind : find_region t i with
  | some r => rw [acquireStep_of_find_some hfind, find_region_set_ne h]
  | none =>
    rw [acquireStep_of_find_none hfind]
    simp [find_region, Ne.symm h]

theorem find_foldl_acquire_not_mem {f : Region → Region} {ids : List Nat} :
    ∀ {t : Table} {i : Nat}, i ∉ ids →
      find_region (List.foldl (acquireStep f) t ids) i = find_region t i := by
  induction ids with
  | nil => intro t i _; rfl
  | cons j js ih =>
    intro t i hmem
    have h1 : i ≠ j := fun hh => hmem (by rw [hh]; exact List.mem_cons_self _ _)
    have h2 : i ∉ js := fun hh => hmem (List.mem_cons_of_mem _ hh)
    rw [List.foldl_cons, ih h2]
    exact find_acquireStep_ne h1

theorem wf_foldl_acquire {f : Region → Region} (hf : ∀ r, (f r).refcount = r.refcount)
    {ids : List Nat} : ∀ {t : Table}, wf t → wf (List.foldl (acquireStep f) t ids) := by
  induction ids with
  | nil => intro t hw; exact hw
  | cons j js ih =>
    intro t hw
    rw [List.foldl_cons]
    exact ih (wf_acquireStep hf hw)

theorem undo_acquire {t : Table} {id : Nat} (hw : wf t) :
    unlock_region (get_and_lock_region t id).2 id = some t := by
  cases hfind : find_region t id with
  | some r =>
    have hpos : 0 < r.refcount := hw.2 _ (find_region_mem hfind)
    have hfind2 : find_region (set_region t id { r with refcount := r.refcount + 1 }) id
        = some { r with refcount := r.refcount + 1 } := find_region_set_self hfind
    simp only [get_and_lock_region, hfind, unlock_region, hfind2, Nat.succ_ne_zero,
      if_false, Nat.add_sub_cancel, hpos.ne', set_region_set_region]
    rw [set_region_self hw.1 hfind]
  | none =>
    have hfind2 : find_region
        ((id, ({ refcount := 1, writer := false, readers := 0 } : Region)) :: t) id
        = some { refcount := 1, writer := false, readers := 0 } := by
      rw [find_region, if_pos rfl]
    simp only [get_and_lock_region, hfind, unlock_region, hfind2]
    rw [erase_region, if_pos rfl, erase_region_of_find_none hfind]
    simp

theorem releaseStep_acquireStep {f g : Region → Region}
    (hf : ∀ r, (f r).refcount = r.refcount) (hg : ∀ r, (g r).refcount = r.refcount)
    {t : Table} {id : Nat} (hw : wf t)
    (hcond : find_region t id = none ∨
      ∃ r, find_region t id = some r ∧
        g (f { r with refcount := r.refcount + 1 }) = { r with refcount := r.refcount + 1 }) :
    releaseStep g (acquireStep f t id) id = Except.ok t := by
  rcases hcond with hnone | ⟨r, hfind, heq⟩
  · rw [acquireStep_of_find_none hnone]
    have hfind2 : find_region
        ((id, f { refcount := 1, writer := false, readers := 0 }) :: t) id
        = some (f { refcount := 1, writer := false, readers := 0 }) := by
      rw [find_region, if_pos rfl]
    have hrc1 : (f ({ refcount := 1, writer := false, readers := 0 } : Region)).refcount = 1 :=
      hf _
    have hset : set_region ((id, f { refcount := 1, writer := false, readers := 0 }) :: t) id
        (g (f { refcount := 1, writer := false, readers := 0 }))
        = (id, g (f { refcount := 1, writer := false, readers := 0 })) :: t := by
      rw [set_region, if_pos rfl, set_region_of_find_none hnone]
    have hfind3 : find_region
        ((id, g (f { refcount := 1, writer := false, readers := 0 })) :: t) id
        = some (g (f { refcount := 1, writer := false, readers := 0 })) := by
      rw [find_region, if_pos rfl]
    have hrc2 : (g (f ({ refcount := 1, writer := false, readers := 0 } : Region))).refcount = 1 := by
      rw [hg, hrc1]
    simp only [releaseStep, get_locked_region, hfind2, hrc1, if_false, one_ne_zero, hset,
      unlock_region, hfind3, hrc2]
    rw [erase_region, if_pos rfl, erase_region_of_find_none hnone]
    simp
  · have hpos : 0 < r.refcount := hw.2 _ (find_region_mem hfind)
    rw [acquireStep_of_find_some hfind]
    have hfind2 : find_region (set_region t id (f { r with refcount := r.refcount + 1 })) id
        = some (f { r with refcount := r.refcount + 1 }) := find_region_set_self hfind
    have hrcf : (f ({ r with refcount := r.refcount + 1 } : Region)).refcount
        = r.refcount + 1 := hf _
    have hset : set_region (set_region t id (f { r with refcount := r.refcount + 1 })) id
        (g (f { r with refcount := r.refcount + 1 }))
        = set_region t id { r with refcount := r.refcount + 1 } := by
      rw [set_region_set_region, heq]
    have hfind3 : find_region (set_region t id { r with refcount := r.refcount + 1 }) id
        = some { r with refcount := r.refcount + 1 } := find_region_set_self hfind
    simp only [releaseStep, get_locked_region, hfind2, hrcf, Nat.succ_ne_zero, if_false,
      hset, unlock_region, hfind3, Nat.add_sub_cancel, hpos.ne', set_region_set_region]
    rw [set_region_self hw.1 hfind]

theorem set_acquire_comm {f : Region → Region} {t : Table} {i j : Nat} {x : Region}
    (hne : i ≠ j) :
    set_region (acquireStep f t j) i x = acquireStep f (set_region t i x) j := by
  cases hfind : find_region t j with
  | some r =>
    rw [acquireStep_of_find_some hfind,
      acquireStep_of_find_some ((find_region_set_ne (Ne.symm hne)).trans hfind)]
    exact set_region_comm hne
  | none =>
    rw [acquireStep_of_find_none hfind,
      acquireStep_of_find_none ((find_region_set_ne (Ne.symm hne)).trans hfind)]
    rw [set_region]
    simp [Ne.symm hne]

theorem erase_acquire_comm {f : Region → Region} {t : Table} {i j : Nat} (hne : i ≠ j) :
    erase_region (acquireStep f t j) i = acquireStep f (erase_region t i) j := by
  cases hfind : find_region t j with
  | some r =>
    rw [acquireStep_of_find_some hfind,
      acquireStep_of_find_some ((find_region_erase_ne (Ne.symm hne)).trans hfind)]
    exact erase_set_comm hne
  | none =>
    rw [acquireStep_of_find_none hfind,
      acquireStep_of_find_none ((find_region_erase_ne (Ne.symm hne)).trans hfind)]
    rw [erase_region]
    simp [Ne.symm hne]

theorem unlock_acquire_comm {f : Region → Region}
    {t u : Table} {i j : Nat} (hne : i ≠ j)
    (h : unlock_region t i = some u) :
    unlock_region (acquireStep f t j) i = some (acquireStep f u j) := by
  cases hfind : find_region t i with
  | none => rw [unlock_region, hfind] at h; exact absurd h (by simp)
  | some r =>
    simp only [unlock_region, hfind] at h
    have hfind2 : find_region (acquireStep f t j) i = some r :=
      (find_acquireStep_ne hne).trans hfind
    simp only [unlock_region, hfind2]
    by_cases hrc : (if r.refcount = 0 then U64 - 1 else r.refcount - 1) = 0
    · rw [if_pos hrc] at h ⊢
      injection h with h
      rw [← h, erase_acquire_comm hne]
    · rw [if_neg hrc] at h ⊢
      injection h with h
      rw [← h, set_acquire_comm hne]

theorem releaseStep_acquire_comm {f g : Region → Region}
    {t u : Table} {i j : Nat} (hne : i ≠ j)
    (h : releaseStep g t i = Except.ok u) :
    releaseStep g (acquireStep f t j) i = Except.ok (acquireStep f u j) := by
  cases hfind : find_region t i with
  | none =>
    simp only [releaseStep, get_locked_region, hfind] at h
    exact absurd h (by simp)
  | some r =>
    by_cases hrc0 : r.refcount = 0
    · simp only [releaseStep, get_locked_region, hfind, if_pos hrc0] at h
      exact absurd h (by simp)
    · simp only [releaseStep, get_locked_region, hfind, if_neg hrc0] at h
      have hfind2 : find_region (acquireStep f t j) i = some r :=
        (find_acquireStep_ne hne).trans hfind
      simp only [releaseStep, get_locked_region, hfind2, if_neg hrc0]
      rw [set_acquire_comm hne]
      cases hun : unlock_region (set_region t i (g r)) i with
      | none =>
        simp only [hun] at h
        exact absurd h (by simp)
      | some t2 =>
        simp only [hun] at h
        injection h with h
        rw [unlock_acquire_comm hne hun, h]

theorem releaseStep_foldl_acquire {f g : Region → Region} {js : List Nat} :
    ∀ {t u : Table} {i : Nat}, (∀ j ∈ js, j ≠ i) →
      releaseStep g t i = Except.ok u →
      releaseStep g (List.foldl (acquireStep f) t js) i
        = Except.ok (List.foldl (acquireStep f) u js) := by
  induction js with
  | nil => intro t u i _ h; exact h
  | cons j js ih =>
    intro t u i hne h
    rw [List.foldl_cons, List.foldl_cons]
    exact ih (fun a ha => hne a (List.mem_cons_of_mem _ ha))
      (releaseStep_acquire_comm (Ne.symm (hne j (List.mem_cons_self _ _))) h)

theorem acquire_release_roundtrip {f g : Region → Region}
    (hf : ∀ r, (f r).refcount = r.refcount) (hg : ∀ r, (g r).refcount = r.refcount)
    {ids : List Nat} :
    ∀ {t : Table}, ids.Nodup → wf t →
      (∀ id ∈ ids, find_region t id = none ∨
        ∃ r, find_region t id = some r ∧
          g (f { r with refcount := r.refcount + 1 }) = { r with refcount := r.refcount + 1 }) →
      List.foldlM (releaseStep g) (List.foldl (acquireStep f) t ids) ids = Except.ok t := by
  induction ids with
  | nil => intro t _ _ _; rfl
  | cons i rest ih =>
    intro t hnd hw hcond
    have hnotmem : i ∉ rest := (List.nodup_cons.mp hnd).1
    have hstep : releaseStep g (List.foldl (acquireStep f) (acquireStep f t i) rest) i
        = Except.ok (List.foldl (acquireStep f) t rest) :=
      releaseStep_foldl_acquire (fun j hj hh => hnotmem (hh ▸ hj))
        (releaseStep_acquireStep hf hg hw (hcond i (List.mem_cons_self _ _)))
    rw [List.foldl_cons, List.foldlM_cons, hstep]
    exact ih (List.nodup_cons.mp hnd).2 hw
      (fun a ha => hcond a (List.mem_cons_of_mem _ ha))

/-! ### Region enumeration -/

theorem for_each_region_eq {rs o l : Nat} (hrs : 0 < rs) :
    for_each_region rs o l
      = (List.range ((l + rs - 1) % U64 / rs)).map (fun i => o / rs + i) := by
  simp only [for_each_region, do_for_each_region, alignedUpLength, alignedDownOffset,
    get_region_id]
  rw [Nat.mul_div_cancel _ hrs]
  congr 1
  funext i
  rw [← Nat.add_mul, Nat.mul_div_cancel _ hrs]

theorem for_each_region_pairwise {rs o l : Nat} (hrs : 0 < rs) :
    List.Pairwise (· < ·) (for_each_region rs o l) := by
  rw [for_each_region_eq hrs]
  refine List.Pairwise.map _ (fun a b hab => ?_) (List.pairwise_lt_range _)
  exact Nat.add_lt_add_left hab _

theorem for_each_region_nodup {rs o l : Nat} (hrs : 0 < rs) :
    (for_each_region rs o l).Nodup :=
  (for_each_region_pairwise hrs).imp (fun hab => Nat.ne_of_lt hab)

/-! ### Lock-unlock roundtrip -/

theorem lock_then_unlock {rs : Nat} {t : Table} {o l : Nat} (hrs : 0 < rs)
    (hv : validate_parameters o l = true) (hw : wf t)
    (hfresh : ∀ id ∈ for_each_region rs o l, find_region t id = none) :
    (lock rs t o l).bind (fun t1 => unlock rs t1 o l) = Except.ok t := by
  rw [lock, if_pos hv]
  show unlock rs (List.foldl (acquireStep exclusiveAcquire) t (for_each_region rs o l)) o l
    = Except.ok t
  rw [unlock, if_pos hv]
  exact acquire_release_roundtrip (f := exclusiveAcquire) (g := exclusiveRelease)
    (fun r => rfl) (fun r => rfl)
    (for_each_region_nodup hrs) hw (fun id hid => Or.inl (hfresh id hid))

theorem find_foldl_acquire_writer {ids : List Nat} :
    ∀ {t : Table} {id : Nat}, ids.Nodup → id ∈ ids →
      ∃ r, find_region (List.foldl (acquireStep exclusiveAcquire) t ids) id = some r ∧
        r.writer = true := by
  induction ids with
  | nil => intro t id _ h; simp at h
  | cons j js ih =>
    intro t id hnd hmem
    rw [List.foldl_cons]
    rcases List.mem_cons.mp hmem with hh | hh
    · subst hh
      rw [find_foldl_acquire_not_mem (List.nodup_cons.mp hnd).1, find_acquireStep_self]
      exact ⟨_, rfl, rfl⟩
    · exact ih (List.nodup_cons.mp hnd).2 hh

/-! ### Try-lock rollback -/

theorem exclusive_release_acquire {r : Region} (h : r.writer = false) :
    exclusiveRelease (exclusiveAcquire r) = r := by
  cases r with
  | mk n w rd =>
    simp only at h
    rw [exclusiveAcquire, exclusiveRelease]
    simp [h]

theorem shared_release_acquire (r : Region) :
    sharedRelease (sharedAcquire r) = r := by
  cases r with
  | mk n w rd => simp [sharedAcquire, sharedRelease]

/-- A region id at which an exclusive try-acquire can succeed in table
`t`: absent, or present with a free mutex. -/
def freeEntry (t : Table) (id : Nat) : Prop :=
  find_region t id = none ∨
    ∃ r, find_region t id = some r ∧ r.writer = false ∧ r.readers = 0

theorem tryLockGo_false {ids : List Nat} :
    ∀ {acquired : List Nat} {t0 t' : Table},
      (acquired ++ ids).Nodup → wf t0 →
      (∀ a ∈ acquired, freeEntry t0 a) →
      tryLockGo (List.foldl (acquireStep exclusiveAcquire) t0 acquired) acquired ids
        = some (false, t') →
      t' = t0 := by
  induction ids with
  | nil =>
    intro acquired t0 t' _ _ _ h
    simp only [tryLockGo] at h
    simp at h
  | cons id rest ih =>
    intro acquired t0 t' hnd hw hfree h
    have hdisj := (List.nodup_append.mp hnd).2.2
    have hid_not_acq : id ∉ acquired := fun hmem =>
      hdisj hmem (List.mem_cons_self _ _)
    have hfind_eq : find_region (List.foldl (acquireStep exclusiveAcquire) t0 acquired) id
        = find_region t0 id := find_foldl_acquire_not_mem hid_not_acq
    simp only [tryLockGo] at h
    by_cases hc :
        (get_and_lock_region (List.foldl (acquireStep exclusiveAcquire) t0 acquired) id).1.writer
          = false ∧
        (get_and_lock_region (List.foldl (acquireStep exclusiveAcquire) t0 acquired) id).1.readers
          = 0
    · rw [if_pos hc] at h
      have h2 : tryLockGo
          (List.foldl (acquireStep exclusiveAcquire) t0 (acquired ++ [id]))
          (acquired ++ [id]) rest = some (false, t') := by
        rw [List.foldl_append]
        exact h
      have hnd2 : ((acquired ++ [id]) ++ rest).Nodup := by
        rw [List.append_assoc, List.singleton_append]
        exact hnd
      have hfree2 : ∀ a ∈ acquired ++ [id], freeEntry t0 a := by
        intro a ha
        rcases List.mem_append.mp ha with ha | ha
        · exact hfree a ha
        · rw [List.mem_singleton.mp ha]
          cases hfind : find_region t0 id with
          | none => exact Or.inl hfind
          | some r =>
            refine Or.inr ⟨r, hfind, ?_, ?_⟩
            · have := hc.1
              rw [get_and_lock_region, hfind_eq, hfind] at this
              exact this
            · have := hc.2
              rw [get_and_lock_region, hfind_eq, hfind] at this
              exact this
      exact ih hnd2 hw hfree2 h2
    · rw [if_neg hc] at h
      have hwT : wf (List.foldl (acquireStep exclusiveAcquire) t0 acquired) :=
        wf_foldl_acquire (f := exclusiveAcquire) (fun r => rfl) hw
      rw [undo_acquire hwT] at h
      have hcond : ∀ a ∈ acquired, find_region t0 a = none ∨
          ∃ r, find_region t0 a = some r ∧
            exclusiveRelease (exclusiveAcquire { r with refcount := r.refcount + 1 })
              = { r with refcount := r.refcount + 1 } := by
        intro a ha
        rcases hfree a ha with hnone | ⟨r, hfind, hwr, _⟩
        · exact Or.inl hnone
        · exact Or.inr ⟨r, hfind, exclusive_release_acquire hwr⟩
      have hroll : List.foldlM (releaseStep exclusiveRelease)
          (List.foldl (acquireStep exclusiveAcquire) t0 acquired) acquired
          = Except.ok t0 :=
        acquire_release_roundtrip (f := exclusiveAcquire) (g := exclusiveRelease)
          (fun r => rfl) (fun r => rfl) (List.Nodup.of_append_left hnd) hw hcond
      simp only [hroll] at h
      simp at h
      exact h.symm

theorem trySharedGo_false {ids : List Nat} :
    ∀ {acquired : List Nat} {t0 t' : Table},
      (acquired ++ ids).Nodup → wf t0 →
      trySharedGo (List.foldl (acquireStep sharedAcquire) t0 acquired) acquired ids
        = some (false, t') →
      t' = t0 := by
  induction ids with
  | nil =>
    intro acquired t0 t' _ _ h
    simp only [trySharedGo] at h
    simp at h
  | cons id rest ih =>
    intro acquired t0 t' hnd hw h
    simp only [trySharedGo] at h
    by_cases hc :
        (get_and_lock_region (List.foldl (acquireStep sharedAcquire) t0 acquired) id).1.writer
          = false
    · rw [if_pos hc] at h
      have h2 : trySharedGo
          (List.foldl (acquireStep sharedAcquire) t0 (acquired ++ [id]))
          (acquired ++ [id]) rest = some (false, t') := by
        rw [List.foldl_append]
        exact h
      have hnd2 : ((acquired ++ [id]) ++ rest).Nodup := by
        rw [List.append_assoc, List.singleton_append]
        exact hnd
      exact ih hnd2 hw h2
    · rw [if_neg hc] at h
      have hwT : wf (List.foldl (acquireStep sharedAcquire) t0 acquired) :=
        wf_foldl_acquire (f := sharedAcquire) (fun r => rfl) hw
      rw [undo_acquire hwT] at h
      have hcond : ∀ a ∈ acquired, find_region t0 a = none ∨
          ∃ r, find_region t0 a = some r ∧
            sharedRelease (sharedAcquire { r with refcount := r.refcount + 1 })
              = { r with refcount := r.refcount + 1 } := by
        intro a _
        cases hfind : find_region t0 a with
        | none => exact Or.inl rfl
        | some r => exact Or.inr ⟨r, rfl, shared_release_acquire _⟩
      have hroll : List.foldlM (releaseStep sharedRelease)
          (List.foldl (acquireStep sharedAcquire) t0 acquired) acquired
          = Except.ok t0 :=
        acquire_release_roundtrip (f := sharedAcquire) (g := sharedRelease)
          (fun r => rfl) (fun r => rfl) (List.Nodup.of_append_left hnd) hw hcond
      simp only [hroll] at h
      simp at h
      exact h.symm

/-! ### Parameter validation -/

theorem validate_parameters_false {o l : Nat} (ho : o < U64) (hl : l < U64)
    (hbad : l = 0 ∨ U64 ≤ o + l) : validate_parameters o l = false := by
  have hU : U64 = 18446744073709551616 := by norm_num [U64]
  rw [validate_parameters]
  rcases hbad with hbad | hbad
  · have h2 : ¬0 < l := by omega
    simp [h2]
  · have h1 : ¬o < (o + l) % U64 := by
      rw [hU] at ho hl hbad ⊢
      omega
    simp [h1]

/-! ### Remaining helpers -/

theorem two_pow_region_size_pos {rs : Nat} (h : ∃ k, rs = 2 ^ k) : 0 < rs := by
  obtain ⟨k, hk⟩ := h
  rw [hk]
  exact Nat.pow_pos (by norm_num)

theorem pairwise_take_get :
    ∀ {L : List Nat}, List.Pairwise (· < ·) L →
      ∀ {k : Nat} (h : k < L.length) {x : Nat}, x ∈ L.take k → x < L.get ⟨k, h⟩ := by
  intro L
  induction L with
  | nil => intro _ k h; exact absurd h (by simp)
  | cons a L ih =>
    intro hp k
    cases k with
    | zero => intro h x hx; simp at hx
    | succ k =>
      intro h x hx
      rw [List.take_succ_cons, List.mem_cons] at hx
      have hget : (a :: L).get ⟨k + 1, h⟩ = L.get ⟨k, Nat.lt_of_succ_lt_succ h⟩ := rfl
      rcases hx with hx | hx
      · rw [hx, hget]
        exact (List.pairwise_cons.mp hp).1 _ (List.get_mem L _ _)
      · rw [hget]
        exact ih (List.pairwise_cons.mp hp).2 _ hx

theorem lock_shared_then_unlock_shared {rs : Nat} {t : Table} {o l : Nat} (hrs : 0 < rs)
    (hv : validate_parameters o l = true) (hw : wf t)
    (hfresh : ∀ id ∈ for_each_region rs o l, find_region t id = none) :
    (lock_shared rs t o l).bind (fun t1 => unlock_shared rs t1 o l) = Except.ok t := by
  rw [lock_shared, if_pos hv]
  show unlock_shared rs (List.foldl (acquireStep sharedAcquire) t (for_each_region rs o l)) o l
    = Except.ok t
  rw [unlock_shared, if_pos hv]
  exact acquire_release_roundtrip (f := sharedAcquire) (g := sharedRelease)
    (fun r => rfl) (fun r => rfl)
    (for_each_region_nodup hrs) hw (fun id hid => Or.inl (hfresh id hid))

/-! ### Claim theorems -/

/-- Claim C1: the claim states that a valid range operation visits exactly
the region ids `floor(offset/region_size) .. floor((offset+length-1)/region_size)`.
The code instead rounds up the *length* (`for_each_region`, range_lock.hh line
128), so for region size 1024 the valid range `[512, 1536)` — whose bytes span
regions 0 and 1, since `floor(512/1024) = 0` and `floor(1535/1024) = 1` —
visits only region 0, leaving bytes `[1024, 1536)` of the requested range
uncovered, contrary to the claim and to the code's own doc comment
(`Lock range [offset, offset+length)`). -/
theorem c1_covering_drops_last_region :
    for_each_region 1024 512 1024 = [0] ∧
    get_region_id 1024 512 = 0 ∧ get_region_id 1024 (512 + 1024 - 1) = 1 ∧
    ([0] : List Nat) ≠ [0, 1] := by decide

/-- Claim C2 counterexample: with region size 1024 and an initially empty
region table, `with_lock` over `[0, 1024)` with a failing body propagates the
error while region 0 is still exclusively held (refcount 1, writer set): the
body of `with_lock` is `lock(); func(); unlock();`, so a throwing `func()`
skips the `unlock`.  This contradicts the claim that no region of the range
remains held after the error propagates. -/
theorem c2_with_lock_leaks_on_error :
    with_lock 1024 [] 0 1024 true
      = Except.error [(0, { refcount := 1, writer := true, readers := 0 })] ∧
    find_region [(0, ({ refcount := 1, writer := true, readers := 0 } : Region))] 0
      = some { refcount := 1, writer := true, readers := 0 } :=
  ⟨rfl, rfl⟩

/-- Claim C2 (amended): `with_lock` (and `with_lock_shared`) unlocks the
range when the supplied operation completes without error — starting from a
table in which the covered regions are absent, the table is restored exactly;
when the operation fails, the error propagates and every covered region
remains exclusively held (for `with_lock_shared`, the error propagates with
the regions still referenced). -/
theorem c2_with_lock_releases_only_on_success (rs : Nat) (t : Table) (o l : Nat)
    (hpow : ∃ k, rs = 2 ^ k) (hv : validate_parameters o l = true) (hw : wf t)
    (hfresh : ∀ id ∈ for_each_region rs o l, find_region t id = none) :
    with_lock rs t o l false = Except.ok t ∧
    (∃ t1, with_lock rs t o l true = Except.error t1 ∧
      ∀ id ∈ for_each_region rs o l,
        ∃ r, find_region t1 id = some r ∧ r.writer = true) ∧
    with_lock_shared rs t o l false = Except.ok t ∧
    (∃ t2, with_lock_shared rs t o l true = Except.error t2) := by
  have hrs : 0 < rs := two_pow_region_size_pos hpow
  have hl : lock rs t o l
      = Except.ok (List.foldl (acquireStep exclusiveAcquire) t (for_each_region rs o l)) := by
    rw [lock, if_pos hv]
  have hls : lock_shared rs t o l
      = Except.ok (List.foldl (acquireStep sharedAcquire) t (for_each_region rs o l)) := by
    rw [lock_shared, if_pos hv]
  refine ⟨?_,
    ⟨List.foldl (acquireStep exclusiveAcquire) t (for_each_region rs o l), ?_, ?_⟩, ?_,
    ⟨List.foldl (acquireStep sharedAcquire) t (for_each_region rs o l), ?_⟩⟩
  · have hu := lock_then_unlock hrs hv hw hfresh
    rw [hl] at hu
    rw [with_lock, hl]
    simp only [Bool.false_eq_true, if_false]
    simpa [Except.bind] using hu
  · rw [with_lock, hl]
    simp
  · intro id hid
    exact find_foldl_acquire_writer (for_each_region_nodup hrs) hid
  · have hu := lock_shared_then_unlock_shared hrs hv hw hfresh
    rw [hls] at hu
    rw [with_lock_shared, hls]
    simp only [Bool.false_eq_true, if_false]
    simpa [Except.bind] using hu
  · rw [with_lock_shared, hls]
    simp

/-- Claim C3: `try_lock` (and `try_lock_shared`) returns a boolean after
attempting the covered region ids in strictly ascending order (the attempt
list `for_each_region` is strictly sorted), and whenever it returns `false`
every region acquired during the call has been released: the resulting
region table is exactly the table before the call. -/
theorem c3_try_lock_no_side_effects_on_failure (rs : Nat) (t : Table) (o l : Nat)
    (t1 t2 : Table) (hpow : ∃ k, rs = 2 ^ k) (hw : wf t) :
    (try_lock rs t o l = some (false, t1) → t1 = t) ∧
    (try_lock_shared rs t o l = some (false, t2) → t2 = t) ∧
    List.Pairwise (· < ·) (for_each_region rs o l) := by
  have hrs : 0 < rs := two_pow_region_size_pos hpow
  refine ⟨?_, ?_, for_each_region_pairwise hrs⟩
  · intro h
    by_cases hv : validate_parameters o l = true
    · rw [try_lock, if_pos hv] at h
      have h0 : tryLockGo (List.foldl (acquireStep exclusiveAcquire) t []) []
          (for_each_region rs o l) = some (false, t1) := h
      refine tryLockGo_false ?_ hw (fun a ha => absurd ha (List.not_mem_nil a)) h0
      rw [List.nil_append]
      exact for_each_region_nodup hrs
    · rw [try_lock, if_neg hv] at h
      exact absurd h (by simp)
  · intro h
    by_cases hv : validate_parameters o l = true
    · rw [try_lock_shared, if_pos hv] at h
      have h0 : trySharedGo (List.foldl (acquireStep sharedAcquire) t []) []
          (for_each_region rs o l) = some (false, t2) := h
      refine trySharedGo_false ?_ hw h0
      rw [List.nil_append]
      exact for_each_region_nodup hrs
    · rw [try_lock_shared, if_neg hv] at h
      exact absurd h (by simp)

/-- Claim C4: per-call acquisition is the ascending traversal of
`for_each_region`, so a caller that is waiting at position `k` of its id
list holds exactly the ids before position `k` (`take k`).  Two such
callers can never each hold the id the other waits for — no circular wait
between two requests, whatever their spans. -/
theorem c4_no_circular_wait (rs o1 l1 o2 l2 k1 k2 : Nat) (hpow : ∃ k, rs = 2 ^ k)
    (h1 : k1 < (for_each_region rs o1 l1).length)
    (h2 : k2 < (for_each_region rs o2 l2).length) :
    ¬((for_each_region rs o1 l1).get ⟨k1, h1⟩ ∈ (for_each_region rs o2 l2).take k2 ∧
      (for_each_region rs o2 l2).get ⟨k2, h2⟩ ∈ (for_each_region rs o1 l1).take k1) := by
  have hrs : 0 < rs := two_pow_region_size_pos hpow
  rintro ⟨ha, hb⟩
  have hlt1 : (for_each_region rs o1 l1).get ⟨k1, h1⟩
      < (for_each_region rs o2 l2).get ⟨k2, h2⟩ :=
    pairwise_take_get (for_each_region_pairwise hrs) h2 ha
  have hlt2 : (for_each_region rs o2 l2).get ⟨k2, h2⟩
      < (for_each_region rs o1 l1).get ⟨k1, h1⟩ :=
    pairwise_take_get (for_each_region_pairwise hrs) h1 hb
  exact absurd hlt2 (Nat.lt_asymm hlt1)

/-- Claim C5: the Region Table invariant.  In a well-formed table every
present entry has positive refcount; `get_and_lock_region` (acquire) and
`unlock_region` (release) preserve well-formedness; an entry is created with
refcount 1 when first acquired; and a successful release removes the entry
exactly when the refcount returns to zero (i.e. was 1). -/
theorem c5_refcount_invariant (t : Table) (id : Nat) (hw : wf t) :
    (∀ j r, find_region t j = some r → 0 < r.refcount) ∧
    wf (get_and_lock_region t id).2 ∧
    (∀ t', unlock_region t id = some t' → wf t') ∧
    (find_region t id = none →
      find_region (get_and_lock_region t id).2 id
        = some { refcount := 1, writer := false, readers := 0 }) ∧
    (∀ r t', find_region t id = some r → unlock_region t id = some t' →
      (find_region t' id = none ↔ r.refcount = 1)) := by
  refine ⟨fun j r h => hw.2 _ (find_region_mem h), wf_get_and_lock hw,
    fun t' h => wf_unlock_region hw h, ?_, ?_⟩
  · intro hnone
    simp only [get_and_lock_region, hnone]
    rw [find_region, if_pos rfl]
  · intro r t' hfind hun
    have hpos : 0 < r.refcount := hw.2 _ (find_region_mem hfind)
    simp only [unlock_region, hfind] at hun
    rw [if_neg hpos.ne'] at hun
    by_cases h1 : r.refcount - 1 = 0
    · rw [if_pos h1] at hun
      injection hun with hun
      subst hun
      constructor
      · intro _; omega
      · intro _; exact find_region_erase_self
    · rw [if_neg h1] at hun
      injection hun with hun
      subst hun
      rw [find_region_set_self hfind]
      constructor
      · intro hcontra; exact absurd hcontra (by simp)
      · intro h2; exact absurd (by omega : r.refcount - 1 = 0) h1

/-- Claim C6: for any valid `(offset, length)` and any well-formed table in
which the covered regions are absent (entries solely referenced by this
call), `lock` followed by `unlock` restores the table exactly; in
particular the empty table is empty again afterwards. -/
theorem c6_lock_then_unlock_restores (rs : Nat) (t : Table) (o l : Nat)
    (hpow : ∃ k, rs = 2 ^ k) (hv : validate_parameters o l = true) (hw : wf t)
    (hfresh : ∀ id ∈ for_each_region rs o l, find_region t id = none) :
    (lock rs t o l).bind (fun u => unlock rs u o l) = Except.ok t ∧
    (lock rs [] o l).bind (fun u => unlock rs u o l) = Except.ok [] := by
  have hrs : 0 < rs := two_pow_region_size_pos hpow
  exact ⟨lock_then_unlock hrs hv hw hfresh,
    lock_then_unlock hrs hv (by decide) (fun id _ => rfl)⟩

/-- Claim C8: every range operation validates `length > 0` and
`offset < offset + length` (in wrapping `uint64_t` arithmetic) before
touching any region: on a zero length or an overflowing `offset + length`
the call fails fatally with the region table unchanged (for the modelled
`try_lock` variants, the assert failure is `none`). -/
theorem c8_parameter_validation (rs : Nat) (t : Table) (o l : Nat)
    (ho : o < U64) (hl : l < U64) (hbad : l = 0 ∨ U64 ≤ o + l) :
    lock rs t o l = Except.error t ∧ unlock rs t o l = Except.error t ∧
    lock_shared rs t o l = Except.error t ∧ unlock_shared rs t o l = Except.error t ∧
    try_lock rs t o l = none ∧ try_lock_shared rs t o l = none := by
  have hv := validate_parameters_false ho hl hbad
  refine ⟨?_, ?_, ?_, ?_, ?_, ?_⟩ <;>
    simp [lock, unlock, lock_shared, unlock_shared, try_lock, try_lock_shared, hv]

/-- Claim C9: `get_locked_region` fails (an assert fires) exactly when the
entry for the id is absent from the table or its refcount is 0; when a
region looked up during an unlock step fails this way, the unlock step is a
fatal error (the error result), never silently tolerated. -/
theorem c9_lookup_locked_fatal (t : Table) (id : Nat) :
    (get_locked_region t id = none ↔
      find_region t id = none ∨ ∃ r, find_region t id = some r ∧ r.refcount = 0) ∧
    (get_locked_region t id = none →
      releaseStep exclusiveRelease t id = Except.error t) := by
  constructor
  · constructor
    · intro h
      cases hfind : find_region t id with
      | none => exact Or.inl rfl
      | some r =>
        simp only [get_locked_region, hfind] at h
        by_cases h0 : r.refcount = 0
        · exact Or.inr ⟨r, rfl, h0⟩
        · rw [if_neg h0] at h
          exact absurd h (by simp)
    · rintro (h | ⟨r, hfind, h0⟩)
      · simp [get_locked_region, h]
      · simp [get_locked_region, hfind, h0]
  · intro h
    rw [releaseStep, h]

/-- Claim C10: `for_each_region` depends on `(offset, length)` only through
the offset aligned down to a region boundary and the length rounded up to a
multiple of the region size; consequently, for two valid ranges with equal
normalizations, `lock` on the first followed by `unlock` on the second
releases exactly what was acquired, restoring a table whose covered regions
were absent. -/
theorem c10_normalized_range (rs : Nat) (t : Table) (o1 l1 o2 l2 : Nat)
    (hpow : ∃ k, rs = 2 ^ k)
    (hdo : alignedDownOffset rs o1 = alignedDownOffset rs o2)
    (hul : alignedUpLength rs l1 = alignedUpLength rs l2)
    (hv1 : validate_parameters o1 l1 = true) (hv2 : validate_parameters o2 l2 = true)
    (hw : wf t) (hfresh : ∀ id ∈ for_each_region rs o1 l1, find_region t id = none) :
    for_each_region rs o1 l1 = for_each_region rs o2 l2 ∧
    (lock rs t o1 l1).bind (fun u => unlock rs u o2 l2) = Except.ok t := by
  have hrs : 0 < rs := two_pow_region_size_pos hpow
  have hlist : for_each_region rs o1 l1 = for_each_region rs o2 l2 := by
    rw [for_each_region, for_each_region, hdo, hul]
  refine ⟨hlist, ?_⟩
  rw [lock, if_pos hv1]
  show unlock rs (List.foldl (acquireStep exclusiveAcquire) t (for_each_region rs o1 l1)) o2 l2
    = Except.ok t
  rw [unlock, if_pos hv2, ← hlist]
  exact acquire_release_roundtrip (f := exclusiveAcquire) (g := exclusiveRelease)
    (fun r => rfl) (fun r => rfl)
    (for_each_region_nodup hrs) hw (fun id hid => Or.inl (hfresh id hid))

/-! ### Witnesses -/

/-- Witness for C2 (amended) at region size 1024, empty table, range
`[0, 1024)`. -/
theorem c2_witness :
    with_lock 1024 [] 0 1024 false = Except.ok [] ∧
    (∃ t1, with_lock 1024 [] 0 1024 true = Except.error t1 ∧
      ∀ id ∈ for_each_region 1024 0 1024,
        ∃ r, find_region t1 id = some r ∧ r.writer = true) ∧
    with_lock_shared 1024 [] 0 1024 false = Except.ok [] ∧
    (∃ t2, with_lock_shared 1024 [] 0 1024 true = Except.error t2) :=
  c2_with_lock_releases_only_on_success 1024 [] 0 1024 ⟨10, rfl⟩ (by decide) (by decide)
    (by decide)

/-- Witness for C3 at region size 1024 with region 0 exclusively held by
another caller: `try_lock` over `[0, 1024)` fails and leaves the table
unchanged. -/
theorem c3_witness :
    (try_lock 1024 [(5, { refcount := 1, writer := true, readers := 0 })] 5120 1024
        = some (false, [(5, { refcount := 1, writer := true, readers := 0 })]) →
      ([(5, { refcount := 1, writer := true, readers := 0 })] : Table)
        = [(5, { refcount := 1, writer := true, readers := 0 })]) ∧
    (try_lock_shared 1024 [(5, { refcount := 1, writer := true, readers := 0 })] 5120 1024
        = some (false, [(5, { refcount := 1, writer := true, readers := 0 })]) →
      ([(5, { refcount := 1, writer := true, readers := 0 })] : Table)
        = [(5, { refcount := 1, writer := true, readers := 0 })]) ∧
    List.Pairwise (· < ·) (for_each_region 1024 5120 1024) :=
  c3_try_lock_no_side_effects_on_failure 1024
    [(5, { refcount := 1, writer := true, readers := 0 })] 5120 1024
    [(5, { refcount := 1, writer := true, readers := 0 })]
    [(5, { refcount := 1, writer := true, readers := 0 })]
    ⟨10, rfl⟩ (by decide)

/-- Witness for C4 with the overlapping two-region spans `[0, 2048)`
(ids 0, 1) and `[1024, 3072)` (ids 1, 2), each waiting at position 1. -/
theorem c4_witness :
    ¬((for_each_region 1024 0 2048).get ⟨1, by decide⟩
        ∈ (for_each_region 1024 1024 2048).take 1 ∧
      (for_each_region 1024 1024 2048).get ⟨1, by decide⟩
        ∈ (for_each_region 1024 0 2048).take 1) :=
  c4_no_circular_wait 1024 0 2048 1024 2048 1 1 ⟨10, rfl⟩ (by decide) (by decide)

/-- Witness for C5 on a well-formed one-entry table at id 5. -/
theorem c5_witness :
    (∀ j r, find_region [(5, { refcount := 2, writer := false, readers := 0 })] j = some r →
      0 < r.refcount) ∧
    wf (get_and_lock_region [(5, { refcount := 2, writer := false, readers := 0 })] 5).2 ∧
    (∀ t', unlock_region [(5, { refcount := 2, writer := false, readers := 0 })] 5 = some t' →
      wf t') ∧
    (find_region [(5, { refcount := 2, writer := false, readers := 0 })] 5 = none →
      find_region (get_and_lock_region
          [(5, { refcount := 2, writer := false, readers := 0 })] 5).2 5
        = some { refcount := 1, writer := false, readers := 0 }) ∧
    (∀ r t', find_region [(5, { refcount := 2, writer := false, readers := 0 })] 5 = some r →
      unlock_region [(5, { refcount := 2, writer := false, readers := 0 })] 5 = some t' →
      (find_region t' 5 = none ↔ r.refcount = 1)) :=
  c5_refcount_invariant [(5, { refcount := 2, writer := false, readers := 0 })] 5 (by decide)

/-- Witness for C6 at region size 1024, empty table, range `[0, 2048)`. -/
theorem c6_witness :
    (lock 1024 [] 0 2048).bind (fun u => unlock 1024 u 0 2048) = Except.ok [] ∧
    (lock 1024 [] 0 2048).bind (fun u => unlock 1024 u 0 2048) = Except.ok [] :=
  c6_lock_then_unlock_restores 1024 [] 0 2048 ⟨10, rfl⟩ (by decide) (by decide)
    (fun id _ => rfl)

/-- Witness for C8 at the invalid zero-length range `(0, 0)`. -/
theorem c8_witness :
    lock 1024 [] 0 0 = Except.error [] ∧ unlock 1024 [] 0 0 = Except.error [] ∧
    lock_shared 1024 [] 0 0 = Except.error [] ∧ unlock_shared 1024 [] 0 0 = Except.error [] ∧
    try_lock 1024 [] 0 0 = none ∧ try_lock_shared 1024 [] 0 0 = none :=
  c8_parameter_validation 1024 [] 0 0 (by decide) (by decide) (Or.inl rfl)

/-- Witness for C9 at the empty table and id 0 (unlock without a matching
lock). -/
theorem c9_witness :
    (get_locked_region [] 0 = none ↔
      find_region ([] : Table) 0 = none ∨
        ∃ r, find_region ([] : Table) 0 = some r ∧ r.refcount = 0) ∧
    releaseStep exclusiveRelease [] 0 = Except.error [] :=
  ⟨(c9_lookup_locked_fatal [] 0).1, (c9_lookup_locked_fatal [] 0).2 rfl⟩

/-- Witness for C10: `(512, 512)` and `(0, 1024)` normalize identically at
region size 1024, and lock with the former then unlock with the latter
restores the empty table. -/
theorem c10_witness :
    for_each_region 1024 512 512 = for_each_region 1024 0 1024 ∧
    (lock 1024 [] 512 512).bind (fun u => unlock 1024 u 0 1024) = Except.ok [] :=
  c10_normalized_range 1024 [] 512 512 0 1024 ⟨10, rfl⟩ (by decide) (by decide)
    (by decide) (by decide) (by decide) (fun id _ => rfl)
